import Mathlib

/-!
Verification development for the `transitive-frontier` tool (`src/main.rs`).

The tool resolves a target package from a substring of its package id,
computes the reverse-dependency (ancestor) closure of that target in the
package graph — pruning edges whose `to` endpoint matches a caller-supplied
skip list — and reports every edge of the induced subgraph that crosses the
workspace boundary, grouped by the `from` package's display name.

The graph traversal itself is performed by the external `guppy` library
(`query_reverse` + `resolve_with_fn` + `PackageSet::links`), whose code is
not part of this repository; those operations are modelled from the spec
(see the doc comments on `packageSet` and `setLinks`).  Everything else is
a direct shallow embedding of `src/main.rs`.
-/

/-- Package metadata as used by `main.rs` via guppy: a unique id string
(`id.repr()` in the source), a display name, a version and the
workspace-membership flag (`in_workspace()`). -/
structure PackageMetadata where
  id : String
  name : String
  version : String
  in_workspace : Bool
deriving DecidableEq

/-- A directed dependency link `from → to`.  The Rust source calls the
endpoints `link.from()` and `link.to()`; both `from` and `to` are reserved
words in Lean, so they are called `frm` and `dst` here. -/
structure Link where
  frm : PackageMetadata
  dst : PackageMetadata
deriving DecidableEq

/-- The package dependency graph: the node set and the edge set.  Built by
the external collaborator (guppy / cargo metadata) before the core runs. -/
structure PackageGraph where
  packages : List PackageMetadata
  links : List Link
deriving DecidableEq

/-- Auxiliary substring search over character lists: does `need` occur as a
contiguous run inside the second list?  This embeds Rust's
`str::contains` (byte-level substring search; on valid UTF-8, byte-level
containment of a well-formed pattern coincides with character-level
containment because UTF-8 is self-synchronizing). -/
def strContainsAux (need : List Char) : List Char → Bool
  | [] => need.isEmpty
  | c :: cs => need.isPrefixOf (c :: cs) || strContainsAux need cs

/-- Rust `hay.contains(need)`: substring containment test. -/
def strContains (hay need : String) : Bool :=
  strContainsAux need.data hay.data

/-- All package ids of the graph, as strings: `package_graph.package_ids()`
with `id.repr()` applied (main.rs line 23). -/
def packageIds (g : PackageGraph) : List String :=
  g.packages.map (fun m => m.id)

/-- The candidate list built by main.rs lines 21-27: every package id whose
repr contains the user-supplied substring `opt.package_id`. -/
def candidates (g : PackageGraph) (package_id : String) : List String :=
  (packageIds g).filter (fun i => strContains i package_id)

/-- Target resolution, main.rs lines 20-40: if exactly one candidate
matched, return it; otherwise fail, handing back the full candidate list
(the source prints each candidate to stderr before returning the error). -/
def resolveTarget (g : PackageGraph) (package_id : String) : Except (List String) String :=
  match candidates g package_id with
  | [c] => Except.ok c
  | cs => Except.error cs

/-- Metadata lookup, `package_graph.metadata(package_id)` (main.rs line 74). -/
def PackageGraph.metadata (g : PackageGraph) (package_id : String) : Option PackageMetadata :=
  g.packages.find? (fun m => m.id == package_id)

/-- The edge-admissibility predicate passed to `resolve_with_fn`
(main.rs line 45): an edge is admissible unless the `to` node's id
contains one of the skip substrings. -/
def admissible (skip : List String) (l : Link) : Bool :=
  !(skip.any (fun s => strContains l.dst.id s))

/-- One expansion of the reachability worklist by a single link: add `frm`
when the link is admissible, its `to` endpoint is already in the set and
`frm` is not yet present. -/
def addLink (adm : Link → Bool) (acc : List String) (l : Link) : List String :=
  if adm l && acc.contains l.dst.id && !(acc.contains l.frm.id) then
    acc ++ [l.frm.id]
  else acc

/-- One round of the reachability closure: scan every link and expand the
set with `addLink`. -/
def closureStep (g : PackageGraph) (adm : Link → Bool) (seen : List String) : List String :=
  g.links.foldl (addLink adm) seen

/-- Modelled from the spec: `package_graph.query_reverse(once(package_id)).resolve_with_fn(pred)`
is implemented by the external guppy library, whose code is not in this
repository.  The spec defines it as a reachability closure: "starting from
Target, repeatedly add any node `from` such that an admissible edge
`from → to` exists with `to` already in the closure, until fixpoint".
`closureStep` can add at most one new id per link, so iterating it
`g.links.length + 1` times from the seed reaches the fixpoint. -/
def packageSet (g : PackageGraph) (skip : List String) (package_id : String) : List String :=
  (closureStep g (admissible skip))^[g.links.length + 1] [package_id]

/-- Modelled from the spec: `package_set.links(DependencyDirection::Reverse)`
is guppy code absent from this repository.  The spec defines the iterated
edge set as "every edge `(from, to)` whose *both* endpoints lie in the
closure (i.e., every edge of the induced subgraph)"; the iteration
direction only fixes the (deterministic) order, modelled here by the order
of the graph's edge list. -/
def setLinks (g : PackageGraph) (skip : List String) (package_id : String) : List Link :=
  let s := packageSet g skip package_id
  g.links.filter (fun l => s.contains l.frm.id && s.contains l.dst.id)

/-- Character-wise underscore-to-hyphen replacement.  Embeds
`m.name().replace("_", "-")` (main.rs lines 95-97): for a single-character
pattern and single-character replacement, Rust's replace-all is exactly a
character map. -/
def replaceUnderscores : List Char → List Char
  | [] => []
  | c :: cs => (if c = '_' then '-' else c) :: replaceUnderscores cs

/-- Display name of a package, main.rs `display_name`: the name with every
underscore replaced by a hyphen (kebab-case for display). -/
def display_name (m : PackageMetadata) : String :=
  String.mk (replaceUnderscores m.name.data)

/-- The `"{} {}"` string pushed for the `to` endpoint of a reported link
(main.rs line 69): the format string applied to the name and version of the
link's `to` endpoint. -/
def entryStr (l : Link) : String :=
  l.dst.name ++ " " ++ l.dst.version

/-- The debug line printed for a reported link (main.rs lines 60-65):
the edge is labeled `direct` exactly when its `to` endpoint is the target
package, else `indirect`. -/
def dbgLine (package_id : String) (l : Link) : String :=
  "\t*" ++ (if l.dst.id == package_id then "direct" else "indirect") ++ ": "
    ++ display_name l.frm ++ " -> " ++ l.dst.name

/-- HashMap `entry(k).or_insert_with(Vec::new)` followed by `push v`
(main.rs lines 68-69), on the association-list model of the map: append
`v` to the list at key `k`, creating the entry if absent. -/
def entryPush (fr : List (String × List String)) (k v : String) : List (String × List String) :=
  match fr with
  | [] => [(k, [v])]
  | (k', vs) :: rest =>
    if k' == k then (k', vs ++ [v]) :: rest else (k', vs) :: entryPush rest k v

/-- HashMap lookup on the association-list model. -/
def lookupEntry (fr : List (String × List String)) (k : String) : Option (List String) :=
  match fr with
  | [] => none
  | (k', vs) :: rest => if k' == k then some vs else lookupEntry rest k

/-- One iteration of the reporting loop (main.rs lines 54-71): if the link
crosses the workspace boundary (the `in_workspace` flags of `to` and
`from` differ), push its entry under the `from` display
name, and in debug mode also record the diagnostic line; otherwise leave
the accumulator unchanged.  The first component is the `frontier` map,
the second the sequence of debug lines sent to stderr. -/
def crossingStep (debug : Bool) (package_id : String)
    (acc : List (String × List String) × List String) (l : Link) :
    List (String × List String) × List String :=
  if l.dst.in_workspace != l.frm.in_workspace then
    let dependency_source := display_name l.frm
    let log := if debug then acc.2 ++ [dbgLine package_id l] else acc.2
    (entryPush acc.1 dependency_source (entryStr l), log)
  else acc

/-- The reporting loop of main.rs lines 51-71, folded over the links of the
induced subgraph starting from the empty map. -/
def buildFrontier (debug : Bool) (package_id : String) (links : List Link) :
    List (String × List String) × List String :=
  links.foldl (crossingStep debug package_id) ([], [])

/-- The report handed to the output layer (main.rs `Output`):
the target's own `"{name} {version}"` display string plus the frontier
map.  The Rust `HashMap<String, Vec<String>>` is modelled as an
association list in insertion order. -/
structure Output where
  target_dependency : String
  frontier : List (String × List String)
deriving DecidableEq

/-- Failure modes of a run: ambiguous target resolution (carrying the full
candidate list, which the source prints for diagnostics before erroring),
or a metadata lookup miss (the `?` on main.rs line 74). -/
inductive RunError where
  | ambiguousTarget (matched : List String)
  | metadataNotFound (package_id : String)
deriving DecidableEq

/-- The whole resolution (main.rs `main`, minus CLI parsing and output
serialization): resolve the target id, compute the pruned reverse closure
and its induced links, fold the reporting loop, and pair the frontier with
the target's display string.  The second component of the result is the
debug log (empty when `debug` is off). -/
def run (debug : Bool) (g : PackageGraph) (package_id_substr : String)
    (skip : List String) : Except RunError (Output × List String) :=
  match resolveTarget g package_id_substr with
  | Except.error cs => Except.error (RunError.ambiguousTarget cs)
  | Except.ok package_id =>
    match g.metadata package_id with
    | none => Except.error (RunError.metadataNotFound package_id)
    | some meta =>
      let fl := buildFrontier debug package_id (setLinks g skip package_id)
      Except.ok (Output.mk (meta.name ++ " " ++ meta.version) fl.1, fl.2)

/-- A node has an admissible path to the root: the least relation
containing the root and closed under following an admissible link
backwards (from its `to` endpoint to its `frm` endpoint).  This is the
spec's characterization of the ancestor closure. -/
inductive ReachesTarget (g : PackageGraph) (adm : Link → Bool) (root : String) : String → Prop where
  | refl : ReachesTarget g adm root root
  | step (l : Link) (hl : l ∈ g.links) (ha : adm l = true)
      (hto : ReachesTarget g adm root l.dst.id) : ReachesTarget g adm root l.frm.id

/-- Example graph from the spec (§8): `A(ws) → B(ws) → C(ext) → D(ext)`,
target `D`. -/
def specA : PackageMetadata := PackageMetadata.mk "A" "a" "0.1.0" true

/-- Example node `B` of the spec §8 scenario. -/
def specB : PackageMetadata := PackageMetadata.mk "B" "b" "0.2.0" true

/-- Example node `C` of the spec §8 scenario. -/
def specC : PackageMetadata := PackageMetadata.mk "C" "c" "0.3.0" false

/-- Example node `D` (the target) of the spec §8 scenario. -/
def specD : PackageMetadata := PackageMetadata.mk "D" "target" "1.0.0" false

/-- Example graph of the spec §8 scenario. -/
def specGraph : PackageGraph :=
  PackageGraph.mk [specA, specB, specC, specD]
    [Link.mk specA specB, Link.mk specB specC, Link.mk specC specD]

/-- Total number of entry strings held by the frontier map: each reported
link pushes exactly one entry, so this counts individual contributions. -/
def totalEntries (fr : List (String × List String)) : Nat :=
  (fr.map (fun p => p.2.length)).sum

/-- Merge freshly accumulated entries `vs` into an optional existing list:
an absent key stays absent when nothing was contributed (the source only
creates an entry at the moment of a first push), otherwise the
contributions are appended. -/
def mergeOpt (o : Option (List String)) (vs : List String) : Option (List String) :=
  match o with
  | none => if vs.isEmpty then none else some vs
  | some l => some (l ++ vs)

/-- Entry strings that the reporting loop attributes to the key `k`: one
per boundary-crossing link whose `from` display name is `k`, in link
order. -/
def keyContribs (k : String) (links : List Link) : List String :=
  (links.filter (fun l =>
    (l.dst.in_workspace != l.frm.in_workspace) && (display_name l.frm == k))).map entryStr

/-- Counterexample node `T` (the target, external): see `cexGraph`. -/
def cexT : PackageMetadata := PackageMetadata.mk "T" "tpkg" "1.0.0" false

/-- Counterexample node `X` (workspace member): see `cexGraph`. -/
def cexX : PackageMetadata := PackageMetadata.mk "X" "xpkg" "0.1.0" true

/-- Counterexample node `B` (external, matched by the skip list): see
`cexGraph`. -/
def cexB : PackageMetadata := PackageMetadata.mk "B" "bpkg" "2.0.0" false

/-- Counterexample graph for the pruning-containment claim: edges
`X → T`, `B → T`, `X → B`, target `T`, skip list `["B"]`.  The edge
`X → B` is inadmissible (its `to` id contains the skip substring `"B"`),
but both `X` and `B` independently reach `T` through admissible edges, so
both lie in the ancestor closure and the edge `X → B` is an edge of the
induced subgraph nevertheless. -/
def cexGraph : PackageGraph :=
  PackageGraph.mk [cexT, cexX, cexB]
    [Link.mk cexX cexT, Link.mk cexB cexT, Link.mk cexX cexB]

/-! ### Spec scenarios reproduced -/

/-- Scenario of spec §8: target `D`, empty skip list — the only reported
edge is `B → C` and the report is `{ "b": ["c 0.3.0"] }`. -/
theorem spec_scenario_one : run false specGraph "D" [] =
    Except.ok (Output.mk "target 1.0.0" [("b", ["c 0.3.0"])], []) := rfl

/-- Second scenario of spec §8: skip list `["C"]` prunes `B → C`, the
closure shrinks to `{C, D}` and the report is empty. -/
theorem spec_scenario_two : run false specGraph "D" ["C"] =
    Except.ok (Output.mk "target 1.0.0" [], []) := rfl

/-! ### Substring containment -/

theorem strContainsAux_iff (need : List Char) (l : List Char) :
    strContainsAux need l = true ↔ need <:+: l := by
  induction l with
  | nil => simp [strContainsAux, List.isEmpty_iff, List.infix_nil]
  | cons c cs ih =>
    simp [strContainsAux, List.isPrefixOf_iff_prefix, ih, List.infix_cons_iff]

theorem strContains_iff (hay need : String) :
    strContains hay need = true ↔ ∃ pre post : String, hay = pre ++ need ++ post := by
  rw [strContains, strContainsAux_iff]
  constructor
  · rintro ⟨s, t, h⟩
    refine ⟨String.mk s, String.mk t, String.ext ?_⟩
    rw [String.data_append, String.data_append]
    exact h.symm
  · rintro ⟨p, q, h⟩
    exact ⟨p.data, q.data, by rw [h, String.data_append, String.data_append]⟩

/-- C4: the target-resolution match test is case-sensitive substring
containment over node identifiers — an id is a candidate exactly when it
lies in the graph's id list and literally contains the query substring
anywhere (string equality in Lean is exact, so there is no case folding,
and the decomposition `pre ++ sub ++ post` allows arbitrary surrounding
text, so the test is neither exact nor prefix equality). -/
theorem target_match_substring_containment (g : PackageGraph) (package_id i : String) :
    i ∈ candidates g package_id
      ↔ i ∈ packageIds g ∧ ∃ pre post : String, i = pre ++ package_id ++ post := by
  simp [candidates, List.mem_filter, strContains_iff]

/-- C5: the edge-admissibility predicate is false exactly when the `to`
node's id contains at least one substring of the skip list, and the `from`
node plays no role (replacing it never changes the verdict). -/
theorem skip_predicate_spec (skip : List String) (l : Link) :
    (admissible skip l = false ↔ ∃ s ∈ skip, strContains l.dst.id s = true)
    ∧ ∀ m : PackageMetadata, admissible skip (Link.mk m l.dst) = admissible skip l := by
  refine ⟨?_, fun m => rfl⟩
  simp [admissible, List.any_eq_true]

/-- C3: target resolution succeeds exactly on a singleton candidate list
(the unique id containing the substring); with zero or several candidates
it fails carrying the full candidate list, and the whole run aborts with
`ambiguousTarget` before any traversal — no report of any kind is
produced. -/
theorem target_resolution_exclusive (g : PackageGraph) (package_id : String) :
    ((candidates g package_id).length = 1 →
      ∃ c, candidates g package_id = [c] ∧ resolveTarget g package_id = Except.ok c)
    ∧ ((candidates g package_id).length ≠ 1 →
      resolveTarget g package_id = Except.error (candidates g package_id)
      ∧ ∀ (debug : Bool) (skip : List String),
        run debug g package_id skip
          = Except.error (RunError.ambiguousTarget (candidates g package_id))) := by
  constructor
  · intro h
    match hc : candidates g package_id with
    | [c] => exact ⟨c, rfl, by rw [resolveTarget, hc]⟩
    | [] => rw [hc] at h; simp at h
    | c₁ :: c₂ :: cs => rw [hc] at h; simp at h
  · intro h
    have he : resolveTarget g package_id = Except.error (candidates g package_id) := by
      match hc : candidates g package_id with
      | [c] => rw [hc] at h; simp at h
      | [] => rw [resolveTarget, hc]
      | c₁ :: c₂ :: cs => rw [resolveTarget, hc]
    refine ⟨he, fun debug skip => ?_⟩
    rw [run, he]

theorem target_resolution_exclusive_witness :
    resolveTarget specGraph "D" = Except.ok "D"
    ∧ run false specGraph "" [] = Except.error (RunError.ambiguousTarget ["A", "B", "C", "D"]) := by
  constructor
  · obtain ⟨c, hc, hok⟩ := (target_resolution_exclusive specGraph "D").1 (by decide)
    have h : candidates specGraph "D" = ["D"] := by decide
    rw [h] at hc
    cases hc
    exact hok
  · have h := ((target_resolution_exclusive specGraph "").2 (by decide)).2 false []
    have hc : candidates specGraph "" = ["A", "B", "C", "D"] := by decide
    rw [hc] at h
    exact h

/-- C8: determinism — the resolution is a pure function of the graph, the
target substring and the skip list, so two invocations on the same inputs
yield the same target display string, the same frontier mapping, and the
same list at every key. -/
theorem report_deterministic (debug : Bool) (g : PackageGraph) (package_id_substr : String)
    (skip : List String) (o₁ o₂ : Output) (log₁ log₂ : List String)
    (h₁ : run debug g package_id_substr skip = Except.ok (o₁, log₁))
    (h₂ : run debug g package_id_substr skip = Except.ok (o₂, log₂)) :
    o₁.target_dependency = o₂.target_dependency
    ∧ (∀ k, lookupEntry o₁.frontier k = lookupEntry o₂.frontier k)
    ∧ o₁.frontier = o₂.frontier := by
  have h := h₁.symm.trans h₂
  rw [Except.ok.injEq, Prod.mk.injEq] at h
  obtain ⟨h1, -⟩ := h
  subst h1
  exact ⟨rfl, fun _ => rfl, rfl⟩

theorem report_deterministic_witness :
    (Output.mk "target 1.0.0" [("b", ["c 0.3.0"])]).target_dependency
      = (Output.mk "target 1.0.0" [("b", ["c 0.3.0"])]).target_dependency
    ∧ lookupEntry (Output.mk "target 1.0.0" [("b", ["c 0.3.0"])]).frontier "b"
      = lookupEntry (Output.mk "target 1.0.0" [("b", ["c 0.3.0"])]).frontier "b" := by
  have h := report_deterministic false specGraph "D" []
    (Output.mk "target 1.0.0" [("b", ["c 0.3.0"])])
    (Output.mk "target 1.0.0" [("b", ["c 0.3.0"])]) [] [] rfl rfl
  exact ⟨h.1, h.2.1 "b"⟩

/-! ### Frontier accumulation -/

theorem crossingStep_true (debug : Bool) (package_id : String)
    (acc : List (String × List String) × List String) (l : Link)
    (hc : (l.dst.in_workspace != l.frm.in_workspace) = true) :
    crossingStep debug package_id acc l
      = (entryPush acc.1 (display_name l.frm) (entryStr l),
         if debug then acc.2 ++ [dbgLine package_id l] else acc.2) := by
  simp [crossingStep, hc]

theorem crossingStep_false (debug : Bool) (package_id : String)
    (acc : List (String × List String) × List String) (l : Link)
    (hc : (l.dst.in_workspace != l.frm.in_workspace) = false) :
    crossingStep debug package_id acc l = acc := by
  simp [crossingStep, hc]

theorem lookup_entryPush_self (fr : List (String × List String)) (k v : String) :
    lookupEntry (entryPush fr k v) k = some ((lookupEntry fr k).getD [] ++ [v]) := by
  induction fr with
  | nil => simp [entryPush, lookupEntry]
  | cons p rest ih =>
    obtain ⟨k', vs⟩ := p
    by_cases h : k' = k
    · subst h
      simp [entryPush, lookupEntry]
    · have hb : (k' == k) = false := beq_eq_false_iff_ne.mpr h
      simp [entryPush, lookupEntry, hb, ih]

theorem lookup_entryPush_ne (fr : List (String × List String)) (k v k' : String)
    (h : k ≠ k') :
    lookupEntry (entryPush fr k v) k' = lookupEntry fr k' := by
  induction fr with
  | nil => simp [entryPush, lookupEntry, beq_eq_false_iff_ne.mpr h]
  | cons p rest ih =>
    obtain ⟨k'', vs⟩ := p
    by_cases hk : k'' = k
    · subst hk
      simp [entryPush, lookupEntry, beq_eq_false_iff_ne.mpr h]
    · have hb : (k'' == k) = false := beq_eq_false_iff_ne.mpr hk
      by_cases hk' : k'' = k'
      · subst hk'
        simp [entryPush, lookupEntry, hb]
      · simp [entryPush, lookupEntry, hb, beq_eq_false_iff_ne.mpr hk', ih]

theorem mergeOpt_nil (o : Option (List String)) : mergeOpt o [] = o := by
  cases o <;> simp [mergeOpt]

theorem mergeOpt_push (o : Option (List String)) (v : String) (vs : List String) :
    mergeOpt (some (o.getD [] ++ [v])) vs = mergeOpt o (v :: vs) := by
  cases o <;> simp [mergeOpt]

theorem lookup_foldl_crossingStep (debug : Bool) (package_id : String) (links : List Link)
    (fr : List (String × List String)) (log : List String) (k : String) :
    lookupEntry ((links.foldl (crossingStep debug package_id) (fr, log)).1) k
      = mergeOpt (lookupEntry fr k) (keyContribs k links) := by
  induction links generalizing fr log with
  | nil => simp [keyContribs, mergeOpt_nil]
  | cons l ls ih =>
    rw [List.foldl_cons]
    by_cases hc : (l.dst.in_workspace != l.frm.in_workspace) = true
    · rw [crossingStep_true debug package_id (fr, log) l hc]
      by_cases hk : display_name l.frm = k
      · subst hk
        rw [ih, lookup_entryPush_self]
        have hcon : keyContribs (display_name l.frm) (l :: ls)
            = entryStr l :: keyContribs (display_name l.frm) ls := by
          simp [keyContribs, List.filter_cons, hc]
        rw [hcon, mergeOpt_push]
      · rw [ih, lookup_entryPush_ne _ _ _ _ hk]
        have hcon : keyContribs k (l :: ls) = keyContribs k ls := by
          simp [keyContribs, List.filter_cons, hc, beq_eq_false_iff_ne.mpr hk]
        rw [hcon]
    · have hc' : (l.dst.in_workspace != l.frm.in_workspace) = false :=
        Bool.not_eq_true _ ▸ eq_false_of_ne_true hc
      rw [crossingStep_false debug package_id (fr, log) l hc']
      have hcon : keyContribs k (l :: ls) = keyContribs k ls := by
        simp [keyContribs, List.filter_cons, hc']
      rw [hcon, ih]

theorem totalEntries_entryPush (fr : List (String × List String)) (k v : String) :
    totalEntries (entryPush fr k v) = totalEntries fr + 1 := by
  induction fr with
  | nil => simp [entryPush, totalEntries]
  | cons p rest ih =>
    obtain ⟨k', vs⟩ := p
    by_cases h : (k' == k) = true
    · simp [entryPush, h, totalEntries]
      omega
    · have hb : (k' == k) = false := eq_false_of_ne_true h
      simp only [entryPush, hb, Bool.false_eq_true, if_false, totalEntries,
        List.map_cons, List.sum_cons] at *
      omega

theorem totalEntries_foldl (debug : Bool) (package_id : String) (links : List Link)
    (fr : List (String × List String)) (log : List String) :
    totalEntries ((links.foldl (crossingStep debug package_id) (fr, log)).1)
      = totalEntries fr
        + (links.filter (fun l => l.dst.in_workspace != l.frm.in_workspace)).length := by
  induction links generalizing fr log with
  | nil => simp
  | cons l ls ih =>
    rw [List.foldl_cons, List.filter_cons]
    by_cases hc : (l.dst.in_workspace != l.frm.in_workspace) = true
    · rw [crossingStep_true debug package_id (fr, log) l hc]
      simp only [hc, if_true, List.length_cons]
      rw [ih, totalEntries_entryPush]
      omega
    · have hc' : (l.dst.in_workspace != l.frm.in_workspace) = false :=
        eq_false_of_ne_true hc
      rw [crossingStep_false debug package_id (fr, log) l hc']
      simp only [hc', Bool.false_eq_true, if_false]
      exact ih fr log

theorem foldl_fst_ignores (d₁ d₂ : Bool) (p₁ p₂ : String) (links : List Link)
    (fr : List (String × List String)) (log₁ log₂ : List String) :
    (links.foldl (crossingStep d₁ p₁) (fr, log₁)).1
      = (links.foldl (crossingStep d₂ p₂) (fr, log₂)).1 := by
  induction links generalizing fr log₁ log₂ with
  | nil => rfl
  | cons l ls ih =>
    rw [List.foldl_cons, List.foldl_cons]
    by_cases hc : (l.dst.in_workspace != l.frm.in_workspace) = true
    · rw [crossingStep_true d₁ p₁ (fr, log₁) l hc, crossingStep_true d₂ p₂ (fr, log₂) l hc]
      exact ih _ _ _
    · have hc' : (l.dst.in_workspace != l.frm.in_workspace) = false :=
        eq_false_of_ne_true hc
      rw [crossingStep_false d₁ p₁ (fr, log₁) l hc', crossingStep_false d₂ p₂ (fr, log₂) l hc']
      exact ih _ _ _

theorem foldl_fst_filter (debug : Bool) (package_id : String) (links : List Link)
    (fr : List (String × List String)) (log log' : List String) :
    (links.foldl (crossingStep debug package_id) (fr, log)).1
      = (((links.filter (fun l => l.dst.in_workspace != l.frm.in_workspace)).foldl
          (crossingStep debug package_id) (fr, log'))).1 := by
  induction links generalizing fr log log' with
  | nil => rfl
  | cons l ls ih =>
    rw [List.foldl_cons, List.filter_cons]
    by_cases hc : (l.dst.in_workspace != l.frm.in_workspace) = true
    · simp only [hc, if_true]
      rw [List.foldl_cons]
      rw [crossingStep_true debug package_id (fr, log) l hc,
        crossingStep_true debug package_id (fr, log') l hc]
      exact ih _ _ _
    · have hc' : (l.dst.in_workspace != l.frm.in_workspace) = false :=
        eq_false_of_ne_true hc
      simp only [hc', Bool.false_eq_true, if_false]
      rw [crossingStep_false debug package_id (fr, log) l hc']
      exact ih _ _ _

theorem foldl_snd_true (package_id : String) (links : List Link)
    (fr : List (String × List String)) (log : List String) :
    (links.foldl (crossingStep true package_id) (fr, log)).2
      = log ++ ((links.filter (fun l => l.dst.in_workspace != l.frm.in_workspace)).map
          (dbgLine package_id)) := by
  induction links generalizing fr log with
  | nil => simp
  | cons l ls ih =>
    rw [List.foldl_cons, List.filter_cons]
    by_cases hc : (l.dst.in_workspace != l.frm.in_workspace) = true
    · rw [crossingStep_true true package_id (fr, log) l hc]
      simp only [hc, if_true, List.map_cons]
      rw [ih]
      simp
    · have hc' : (l.dst.in_workspace != l.frm.in_workspace) = false :=
        eq_false_of_ne_true hc
      rw [crossingStep_false true package_id (fr, log) l hc']
      simp only [hc', Bool.false_eq_true, if_false]
      exact ih fr log

theorem foldl_snd_false (package_id : String) (links : List Link)
    (fr : List (String × List String)) (log : List String) :
    (links.foldl (crossingStep false package_id) (fr, log)).2 = log := by
  induction links generalizing fr log with
  | nil => rfl
  | cons l ls ih =>
    rw [List.foldl_cons]
    by_cases hc : (l.dst.in_workspace != l.frm.in_workspace) = true
    · rw [crossingStep_true false package_id (fr, log) l hc]
      exact ih _ _
    · have hc' : (l.dst.in_workspace != l.frm.in_workspace) = false :=
        eq_false_of_ne_true hc
      rw [crossingStep_false false package_id (fr, log) l hc']
      exact ih _ _

/-- C1: for every edge of the induced ancestor subgraph, the edge
contributes an entry to the frontier report if and only if the
`in_workspace` flags of its two endpoints differ (logical XOR): the report
built from all induced links equals the report built from only the
XOR-crossing links (so edges with both endpoints workspace-local, or both
external, contribute nothing), and the total number of accumulated entries
equals the number of XOR-crossing links (so every crossing edge
contributes exactly one entry).  The boundary test mentions neither the
target nor anything else: the target node is not special-cased. -/
theorem frontier_edge_xor_iff (debug : Bool) (g : PackageGraph) (skip : List String)
    (package_id : String) :
    (buildFrontier debug package_id (setLinks g skip package_id)).1
      = (buildFrontier debug package_id ((setLinks g skip package_id).filter
          (fun l => l.dst.in_workspace != l.frm.in_workspace))).1
    ∧ totalEntries (buildFrontier debug package_id (setLinks g skip package_id)).1
      = ((setLinks g skip package_id).filter
          (fun l => l.dst.in_workspace != l.frm.in_workspace)).length := by
  constructor
  · rw [buildFrontier, buildFrontier]
    exact foldl_fst_filter debug package_id _ [] [] []
  · rw [buildFrontier, totalEntries_foldl]
    simp [totalEntries]

/-- C2: for every boundary-crossing edge the resolver appends the string
`to.name ++ " " ++ to.version` to the report list keyed by the `from`
name with every underscore replaced by a hyphen, creating the entry on
first push (an absent key maps to `none`, never to an empty list), so
edges sharing a `from` name accumulate into one list in link order; and
the returned report pairs this mapping with the target's own
`name ++ " " ++ version` display string. -/
theorem frontier_entry_accumulation (debug : Bool) (g : PackageGraph) (sub : String)
    (skip : List String) (package_id : String) (meta : PackageMetadata)
    (h1 : resolveTarget g sub = Except.ok package_id)
    (h2 : g.metadata package_id = some meta) :
    ∃ o log, run debug g sub skip = Except.ok (o, log)
      ∧ o.target_dependency = meta.name ++ " " ++ meta.version
      ∧ ∀ k, lookupEntry o.frontier k
          = mergeOpt none (((setLinks g skip package_id).filter
              (fun l => (l.dst.in_workspace != l.frm.in_workspace)
                && (String.mk (replaceUnderscores l.frm.name.data) == k))).map
              (fun l => l.dst.name ++ " " ++ l.dst.version)) := by
  refine ⟨Output.mk (meta.name ++ " " ++ meta.version)
      (buildFrontier debug package_id (setLinks g skip package_id)).1,
    (buildFrontier debug package_id (setLinks g skip package_id)).2, ?_, rfl, ?_⟩
  · simp only [run, h1, h2]
  · intro k
    rw [buildFrontier, lookup_foldl_crossingStep]
    rfl

theorem frontier_entry_accumulation_witness :
    lookupEntry (Output.mk "target 1.0.0" [("b", ["c 0.3.0"])]).frontier "b"
      = mergeOpt none (((setLinks specGraph [] "D").filter
          (fun l => (l.dst.in_workspace != l.frm.in_workspace)
            && (String.mk (replaceUnderscores l.frm.name.data) == "b"))).map
          (fun l => l.dst.name ++ " " ++ l.dst.version)) := by
  obtain ⟨o, log, hrun, htgt, hk⟩ :=
    frontier_entry_accumulation false specGraph "D" [] "D" specD rfl rfl
  have hconc : run false specGraph "D" []
      = Except.ok (Output.mk "target 1.0.0" [("b", ["c 0.3.0"])], ([] : List String)) := rfl
  have ho := hconc.symm.trans hrun
  rw [Except.ok.injEq, Prod.mk.injEq] at ho
  obtain ⟨ho, -⟩ := ho
  rw [ho]
  exact hk "b"

/-- C9: the debug flag does not interfere with the report — for every
graph, target substring and skip list, the `Output` component of the run
is identical with debug enabled and disabled; debug mode only emits the
diagnostic lines, one per boundary-crossing edge in order, each labeled
by `dbgLine`, which marks an edge `direct` exactly when its `to` endpoint
is the target package id and `indirect` otherwise; with debug disabled the
log is empty. -/
theorem debug_noninterference (g : PackageGraph) (sub : String) (skip : List String)
    (d₁ d₂ : Bool) :
    (Except.map (fun r => r.1) (run d₁ g sub skip)
      = Except.map (fun r => r.1) (run d₂ g sub skip))
    ∧ (∀ package_id o log, resolveTarget g sub = Except.ok package_id →
        run true g sub skip = Except.ok (o, log) →
        log = ((setLinks g skip package_id).filter
            (fun l => l.dst.in_workspace != l.frm.in_workspace)).map (dbgLine package_id))
    ∧ (∀ o log, run false g sub skip = Except.ok (o, log) → log = []) := by
  refine ⟨?_, ?_, ?_⟩
  · rcases hrt : resolveTarget g sub with cs | package_id
    · simp [run, hrt, Except.map]
    · rcases hm : g.metadata package_id with _ | meta
      · simp [run, hrt, hm, Except.map]
      · simp only [run, hrt, hm, Except.map]
        rw [buildFrontier, buildFrontier,
          foldl_fst_ignores d₁ d₂ package_id package_id (setLinks g skip package_id) [] [] []]
  · intro package_id o log hrt hrun
    rcases hm : g.metadata package_id with _ | meta
    · simp [run, hrt, hm] at hrun
    · simp only [run, hrt, hm] at hrun
      rw [Except.ok.injEq, Prod.mk.injEq] at hrun
      obtain ⟨-, hlog⟩ := hrun
      rw [← hlog, buildFrontier, foldl_snd_true]
      simp
  · intro o log hrun
    rcases hrt : resolveTarget g sub with cs | package_id
    · simp [run, hrt] at hrun
    · rcases hm : g.metadata package_id with _ | meta
      · simp [run, hrt, hm] at hrun
      · simp only [run, hrt, hm] at hrun
        rw [Except.ok.injEq, Prod.mk.injEq] at hrun
        obtain ⟨-, hlog⟩ := hrun
        rw [← hlog, buildFrontier, foldl_snd_false]

theorem debug_noninterference_witness :
    Except.map (fun r => r.1) (run true specGraph "D" [])
      = Except.map (fun r => r.1) (run false specGraph "D" [])
    ∧ ["\t*indirect: b -> c"]
      = ((setLinks specGraph [] "D").filter
          (fun l => l.dst.in_workspace != l.frm.in_workspace)).map (dbgLine "D") := by
  have h := debug_noninterference specGraph "D" [] true false
  exact ⟨h.1, h.2.1 "D" (Output.mk "target 1.0.0" [("b", ["c 0.3.0"])])
    ["\t*indirect: b -> c"] rfl rfl⟩

theorem entryPush_ne_nil (fr : List (String × List String)) (k v : String)
    (h : ∀ q ∈ fr, q.2 ≠ []) :
    ∀ q ∈ entryPush fr k v, q.2 ≠ [] := by
  induction fr with
  | nil =>
    intro q hq
    rw [entryPush] at hq
    simp only [List.mem_singleton] at hq
    subst hq
    simp
  | cons p rest ih =>
    obtain ⟨k', vs⟩ := p
    intro q hq
    by_cases hb : (k' == k) = true
    · simp only [entryPush, hb, if_true, List.mem_cons] at hq
      rcases hq with rfl | hq
      · simp
      · exact h q (List.mem_cons_of_mem _ hq)
    · have hb' : (k' == k) = false := eq_false_of_ne_true hb
      simp only [entryPush, hb', Bool.false_eq_true, if_false, List.mem_cons] at hq
      rcases hq with rfl | hq
      · exact h (k', vs) (List.mem_cons_self _ _)
      · exact ih (fun q hq => h q (List.mem_cons_of_mem _ hq)) q hq

theorem foldl_fst_ne_nil (debug : Bool) (package_id : String) (links : List Link)
    (fr : List (String × List String)) (log : List String)
    (h : ∀ q ∈ fr, q.2 ≠ []) :
    ∀ q ∈ (links.foldl (crossingStep debug package_id) (fr, log)).1, q.2 ≠ [] := by
  induction links generalizing fr log with
  | nil => exact h
  | cons l ls ih =>
    rw [List.foldl_cons]
    by_cases hc : (l.dst.in_workspace != l.frm.in_workspace) = true
    · rw [crossingStep_true debug package_id (fr, log) l hc]
      exact ih _ _ (entryPush_ne_nil fr _ _ h)
    · rw [crossingStep_false debug package_id (fr, log) l (eq_false_of_ne_true hc)]
      exact ih _ _ h

/-- C10: every value list in the returned frontier mapping is non-empty —
a key is inserted only at the moment a boundary-crossing edge pushes its
first entry, so no successful run maps a key to an empty list. -/
theorem frontier_values_nonempty (debug : Bool) (g : PackageGraph) (sub : String)
    (skip : List String) (o : Output) (log : List String)
    (h : run debug g sub skip = Except.ok (o, log)) :
    ∀ k vs, (k, vs) ∈ o.frontier → vs ≠ [] := by
  rcases hrt : resolveTarget g sub with cs | package_id
  · simp [run, hrt] at h
  · rcases hm : g.metadata package_id with _ | meta
    · simp [run, hrt, hm] at h
    · simp only [run, hrt, hm] at h
      rw [Except.ok.injEq, Prod.mk.injEq] at h
      obtain ⟨ho, -⟩ := h
      intro k vs hmem
      rw [← ho] at hmem
      exact foldl_fst_ne_nil debug package_id (setLinks g skip package_id) [] []
        (by simp) (k, vs) hmem

theorem frontier_values_nonempty_witness : (["c 0.3.0"] : List String) ≠ [] :=
  frontier_values_nonempty false specGraph "D" []
    (Output.mk "target 1.0.0" [("b", ["c 0.3.0"])]) [] rfl "b" ["c 0.3.0"] (by simp)

/-! ### Reachability closure -/

theorem subset_addLink (adm : Link → Bool) (acc : List String) (l : Link) :
    acc ⊆ addLink adm acc l := by
  rw [addLink]
  split
  · exact List.subset_append_left _ _
  · exact fun x hx => hx

theorem subset_foldl_addLink (adm : Link → Bool) (links : List Link) (acc : List String) :
    acc ⊆ links.foldl (addLink adm) acc := by
  induction links generalizing acc with
  | nil => exact fun x hx => hx
  | cons l ls ih =>
    rw [List.foldl_cons]
    exact (subset_addLink adm acc l).trans (ih _)

theorem mem_addLink (adm : Link → Bool) (acc : List String) (l : Link) (x : String)
    (hx : x ∈ addLink adm acc l) :
    x ∈ acc ∨ (x = l.frm.id ∧ adm l = true ∧ l.dst.id ∈ acc) := by
  rw [addLink] at hx
  by_cases hc : (adm l && acc.contains l.dst.id && !(acc.contains l.frm.id)) = true
  · rw [if_pos hc] at hx
    rcases List.mem_append.mp hx with h | h
    · exact Or.inl h
    · have hco : adm l = true ∧ l.dst.id ∈ acc ∧ l.frm.id ∉ acc := by
        simp [Bool.and_eq_true] at hc
        exact ⟨hc.1.1, hc.1.2, hc.2⟩
      exact Or.inr ⟨List.mem_singleton.mp h, hco.1, hco.2.1⟩
  · rw [if_neg hc] at hx
    exact Or.inl hx

theorem addLink_append (adm : Link → Bool) (acc : List String) (l : Link) :
    ∃ t, addLink adm acc l = acc ++ t := by
  rw [addLink]
  by_cases hc : (adm l && acc.contains l.dst.id && !(acc.contains l.frm.id)) = true
  · exact ⟨[l.frm.id], by rw [if_pos hc]⟩
  · exact ⟨[], by rw [if_neg hc, List.append_nil]⟩

theorem foldl_addLink_append (adm : Link → Bool) (links : List Link) (acc : List String) :
    ∃ t, links.foldl (addLink adm) acc = acc ++ t := by
  induction links generalizing acc with
  | nil => exact ⟨[], by simp⟩
  | cons l ls ih =>
    rw [List.foldl_cons]
    obtain ⟨t0, ht0⟩ := addLink_append adm acc l
    obtain ⟨t1, ht1⟩ := ih (addLink adm acc l)
    exact ⟨t0 ++ t1, by rw [ht1, ht0, List.append_assoc]⟩

theorem foldl_addLink_reaches (g : PackageGraph) (adm : Link → Bool) (root : String)
    (links : List Link) (hlinks : ∀ l ∈ links, l ∈ g.links) (acc : List String)
    (hacc : ∀ x ∈ acc, ReachesTarget g adm root x) :
    ∀ x ∈ links.foldl (addLink adm) acc, ReachesTarget g adm root x := by
  induction links generalizing acc with
  | nil => exact hacc
  | cons l ls ih =>
    rw [List.foldl_cons]
    refine ih (fun l' hl' => hlinks l' (List.mem_cons_of_mem _ hl')) _ ?_
    intro x hx
    rcases mem_addLink adm acc l x hx with h | ⟨rfl, ha, hdst⟩
    · exact hacc x h
    · exact ReachesTarget.step l (hlinks l (List.mem_cons_self _ _)) ha (hacc _ hdst)

theorem packageSet_sound (g : PackageGraph) (skip : List String) (package_id : String) :
    ∀ x ∈ packageSet g skip package_id,
      ReachesTarget g (admissible skip) package_id x := by
  rw [packageSet]
  generalize g.links.length + 1 = n
  induction n with
  | zero =>
    intro x hx
    rw [Function.iterate_zero_apply, List.mem_singleton] at hx
    subst hx
    exact ReachesTarget.refl
  | succ n ih =>
    rw [Function.iterate_succ_apply']
    exact foldl_addLink_reaches g (admissible skip) package_id g.links (fun _ h => h) _ ih

theorem nodup_addLink (adm : Link → Bool) (acc : List String) (l : Link)
    (h : acc.Nodup) : (addLink adm acc l).Nodup := by
  rw [addLink]
  by_cases hc : (adm l && acc.contains l.dst.id && !(acc.contains l.frm.id)) = true
  · rw [if_pos hc]
    have hnot : l.frm.id ∉ acc := by
      simp [Bool.and_eq_true] at hc
      exact hc.2
    simp [List.nodup_append, h, List.Disjoint]
    intro a ha hq
    subst hq
    exact hnot ha
  · rw [if_neg hc]
    exact h

theorem nodup_foldl_addLink (adm : Link → Bool) (links : List Link) (acc : List String)
    (h : acc.Nodup) : (links.foldl (addLink adm) acc).Nodup := by
  induction links generalizing acc with
  | nil => exact h
  | cons l ls ih =>
    rw [List.foldl_cons]
    exact ih _ (nodup_addLink adm acc l h)

theorem nodup_packageSet (g : PackageGraph) (skip : List String) (package_id : String) :
    (packageSet g skip package_id).Nodup := by
  rw [packageSet]
  generalize g.links.length + 1 = n
  induction n with
  | zero =>
    rw [Function.iterate_zero_apply]
    simp
  | succ n ih =>
    rw [Function.iterate_succ_apply']
    exact nodup_foldl_addLink (admissible skip) g.links _ ih

theorem mem_foldl_addLink_types (adm : Link → Bool) (links : List Link) (acc : List String)
    (x : String) (hx : x ∈ links.foldl (addLink adm) acc) :
    x ∈ acc ∨ x ∈ links.map (fun l => l.frm.id) := by
  induction links generalizing acc with
  | nil => exact Or.inl hx
  | cons l ls ih =>
    rw [List.foldl_cons] at hx
    rcases ih (addLink adm acc l) hx with h | h
    · rcases mem_addLink adm acc l x h with h' | ⟨rfl, -, -⟩
      · exact Or.inl h'
      · exact Or.inr (by simp)
    · refine Or.inr ?_
      rw [List.map_cons]
      exact List.mem_cons_of_mem _ h

theorem mem_packageSet_types (g : PackageGraph) (skip : List String) (package_id : String)
    (x : String) (hx : x ∈ packageSet g skip package_id) :
    x = package_id ∨ x ∈ g.links.map (fun l => l.frm.id) := by
  rw [packageSet] at hx
  revert hx
  generalize g.links.length + 1 = n
  induction n with
  | zero =>
    intro hx
    rw [Function.iterate_zero_apply, List.mem_singleton] at hx
    exact Or.inl hx
  | succ n ih =>
    intro hx
    rw [Function.iterate_succ_apply'] at hx
    rcases mem_foldl_addLink_types (admissible skip) g.links _ x hx with h | h
    · exact ih h
    · exact Or.inr h

theorem length_closureStep_lt (g : PackageGraph) (adm : Link → Bool) (s : List String)
    (h : closureStep g adm s ≠ s) : s.length < (closureStep g adm s).length := by
  obtain ⟨t, ht⟩ := foldl_addLink_append adm g.links s
  rw [closureStep] at h ⊢
  cases t with
  | nil => exact absurd (by rw [ht, List.append_nil]) h
  | cons a ts =>
    rw [ht, List.length_append, List.length_cons]
    omega

theorem length_le_of_nodup_subset (l l' : List String) (h : l.Nodup)
    (hs : ∀ x ∈ l, x ∈ l') : l.length ≤ l'.length := by
  classical
  calc l.length = l.toFinset.card := (List.toFinset_card_of_nodup h).symm
    _ ≤ l'.toFinset.card := Finset.card_le_card
        (fun x hx => List.mem_toFinset.mpr (hs x (List.mem_toFinset.mp hx)))
    _ ≤ l'.length := List.toFinset_card_le l'

theorem isClosed_of_foldl_fixed (adm : Link → Bool) (links : List Link) (acc : List String)
    (hfix : links.foldl (addLink adm) acc = acc) :
    ∀ l ∈ links, adm l = true → l.dst.id ∈ acc → l.frm.id ∈ acc := by
  induction links generalizing acc with
  | nil => exact fun l hl => absurd hl (List.not_mem_nil l)
  | cons l₀ ls ih =>
    rw [List.foldl_cons] at hfix
    obtain ⟨t0, ht0⟩ := addLink_append adm acc l₀
    obtain ⟨t1, ht1⟩ := foldl_addLink_append adm ls (addLink adm acc l₀)
    have hnil : t0 = [] ∧ t1 = [] := by
      have hfix2 := hfix
      rw [ht1, ht0, List.append_assoc] at hfix2
      exact List.append_eq_nil.mp (List.append_right_eq_self.mp hfix2)
    have hstep : addLink adm acc l₀ = acc := by
      rw [ht0, hnil.1, List.append_nil]
    have hrest : ls.foldl (addLink adm) acc = acc := by
      have h' := ht1
      rw [hstep, hnil.2, List.append_nil] at h'
      exact h'
    intro l hl hadm hdst
    rcases List.mem_cons.mp hl with rfl | hl'
    · by_contra hnot
      have hcond : (adm l && acc.contains l.dst.id && !(acc.contains l.frm.id)) = true := by
        simp [hadm, hdst, hnot]
      rw [addLink, if_pos hcond] at hstep
      have hlen := congrArg List.length hstep
      rw [List.length_append] at hlen
      simp at hlen
    · exact ih acc hrest l hl' hadm hdst

theorem closureStep_packageSet_fixed (g : PackageGraph) (skip : List String)
    (package_id : String) :
    closureStep g (admissible skip) (packageSet g skip package_id)
      = packageSet g skip package_id := by
  by_contra hne
  have hall : ∀ k, k ≤ g.links.length + 1 →
      closureStep g (admissible skip) ((closureStep g (admissible skip))^[k] [package_id])
        ≠ (closureStep g (admissible skip))^[k] [package_id] := by
    intro k hk hfixk
    apply hne
    have hsplit : g.links.length + 1 = (g.links.length + 1 - k) + k := by omega
    have hps : packageSet g skip package_id
        = (closureStep g (admissible skip))^[k] [package_id] := by
      rw [packageSet, hsplit, Function.iterate_add_apply]
      exact Function.iterate_fixed hfixk _
    rw [hps]
    exact hfixk
  have hgrow : ∀ n, n ≤ g.links.length + 1 →
      n + 1 ≤ (((closureStep g (admissible skip))^[n]) [package_id]).length := by
    intro n
    induction n with
    | zero => intro _; simp
    | succ n ih =>
      intro hn
      have h1 := ih (by omega)
      have h2 := hall n (by omega)
      have h3 := length_closureStep_lt g (admissible skip) _ h2
      rw [Function.iterate_succ_apply']
      omega
  have hb : (((closureStep g (admissible skip))^[g.links.length + 1]) [package_id]).length
      ≤ g.links.length + 1 := by
    have hle := length_le_of_nodup_subset
      (((closureStep g (admissible skip))^[g.links.length + 1]) [package_id])
      (package_id :: g.links.map (fun l => l.frm.id))
      (nodup_packageSet g skip package_id)
      (fun x hx => by
        rcases mem_packageSet_types g skip package_id x hx with rfl | h
        · exact List.mem_cons_self _ _
        · exact List.mem_cons_of_mem _ h)
    rw [List.length_cons, List.length_map] at hle
    omega
  have hfin := hgrow (g.links.length + 1) (le_refl _)
  omega

theorem packageSet_isClosed (g : PackageGraph) (skip : List String) (package_id : String) :
    ∀ l ∈ g.links, admissible skip l = true →
      l.dst.id ∈ packageSet g skip package_id →
      l.frm.id ∈ packageSet g skip package_id := by
  have hfix := closureStep_packageSet_fixed g skip package_id
  rw [closureStep] at hfix
  exact isClosed_of_foldl_fixed (admissible skip) g.links _ hfix

theorem mem_packageSet_self (g : PackageGraph) (skip : List String) (package_id : String) :
    package_id ∈ packageSet g skip package_id := by
  rw [packageSet]
  generalize g.links.length + 1 = n
  induction n with
  | zero => simp
  | succ n ih =>
    rw [Function.iterate_succ_apply']
    exact subset_foldl_addLink (admissible skip) g.links _ ih

theorem packageSet_complete (g : PackageGraph) (skip : List String) (package_id : String)
    (x : String) (h : ReachesTarget g (admissible skip) package_id x) :
    x ∈ packageSet g skip package_id := by
  induction h with
  | refl => exact mem_packageSet_self g skip package_id
  | step l hl ha hto ih => exact packageSet_isClosed g skip package_id l hl ha ih

/-- C7: the ancestor closure is the least fixpoint seeded at the target —
for every graph (acyclicity is not even needed), a node id belongs to the
computed package set if and only if it has some path of admissible edges
to the target, and the set holds each such node exactly once (no
duplicates), so diamond-shaped reachability neither duplicates nor loses a
node that retains an alternate admissible path. -/
theorem closure_iff_reachable (g : PackageGraph) (skip : List String) (package_id : String) :
    (∀ x, x ∈ packageSet g skip package_id
        ↔ ReachesTarget g (admissible skip) package_id x)
    ∧ (packageSet g skip package_id).Nodup :=
  ⟨fun x => ⟨fun h => packageSet_sound g skip package_id x h,
    fun h => packageSet_complete g skip package_id x h⟩,
   nodup_packageSet g skip package_id⟩

/-- Amended C6: pruning is structural in the sense that the closure is
built only through admissible edges — both endpoints of every edge of the
induced subgraph (hence of every reported edge) have an admissible path to
the target, so a node reachable only through pruned edges contributes no
edge to the report.  (The original claim's stronger half is false: an
inadmissible edge whose endpoints both independently reach the target
still lies in the induced subgraph and can be reported; see the
counterexample.) -/
theorem report_links_reachable (g : PackageGraph) (skip : List String) (package_id : String)
    (l : Link) (h : l ∈ setLinks g skip package_id) :
    ReachesTarget g (admissible skip) package_id l.frm.id
    ∧ ReachesTarget g (admissible skip) package_id l.dst.id := by
  rw [setLinks] at h
  obtain ⟨hmem, hcond⟩ := List.mem_filter.mp h
  simp only [Bool.and_eq_true] at hcond
  have h1 : l.frm.id ∈ packageSet g skip package_id := by simpa using hcond.1
  have h2 : l.dst.id ∈ packageSet g skip package_id := by simpa using hcond.2
  exact ⟨packageSet_sound g skip package_id _ h1,
    packageSet_sound g skip package_id _ h2⟩

theorem report_links_reachable_witness :
    ReachesTarget specGraph (admissible []) "D" (Link.mk specB specC).frm.id
    ∧ ReachesTarget specGraph (admissible []) "D" (Link.mk specB specC).dst.id :=
  report_links_reachable specGraph [] "D" (Link.mk specB specC) (by decide)

/-- Counterexample to C6 as stated: in `cexGraph` with skip list `["B"]`,
the skip substring `"B"` matches node `B`'s id, yet the edge `X → B`
(whose `to` endpoint is `B`) lies in the induced subgraph — both `X` and
`B` reach the target `T` through their own admissible edges — and its
entry `"bpkg 2.0.0"` appears in the report under key `"xpkg"`. -/
theorem pruned_edge_reported_cex :
    (["B"].any (fun s => strContains cexB.id s)) = true
    ∧ (Link.mk cexX cexB).dst = cexB
    ∧ (Link.mk cexX cexB) ∈ setLinks cexGraph ["B"] "T"
    ∧ entryStr (Link.mk cexX cexB) = "bpkg 2.0.0"
    ∧ run false cexGraph "T" ["B"]
        = Except.ok (Output.mk "tpkg 1.0.0" [("xpkg", ["tpkg 1.0.0", "bpkg 2.0.0"])], [])
    ∧ lookupEntry (Output.mk "tpkg 1.0.0"
          [("xpkg", ["tpkg 1.0.0", "bpkg 2.0.0"])]).frontier "xpkg"
        = some ["tpkg 1.0.0", "bpkg 2.0.0"] :=
  ⟨rfl, rfl, by decide, rfl, rfl, rfl⟩
